import Mathlib

/-!
Verification development for the analytics-spreadsheet parsing core of the
wrapped-for-linkedin backend.

The embedding follows the Python sources:
  backend/src/utils/discovery_parser.py  (parse_date_range, parse_integer_value,
                                          extract_discovery_data)
  backend/src/utils/top_posts_parser.py  (parse_top_posts_sheet, get_top_posts)

Modelling conventions:
  - Raw spreadsheet cell values are strings, integers or floats (the raw
    heterogeneous values the grid accessor yields); a missing cell is
    `Option.none`.  Floats are modelled as exact rationals: every concrete
    value appearing in the development is exactly representable, so no
    floating-point rounding is involved.
  - Python dicts are modelled as insertion-ordered association lists:
    assignment to an existing key updates the entry in place, assignment to
    a fresh key appends.  `dict.values()` is the list in insertion order.
  - Python exceptions become `Except` with an explicit error datatype.
  - String primitives (strip, split, replace) are re-implemented over
    `List Char` so that every definition evaluates inside the kernel.
-/

/-- Raw spreadsheet cell value: text, int, or float (modelled as an exact
rational).  Matches the value universe the grid accessor produces for the
cells the core reads. -/
inductive Value where
  | str (s : String)
  | int (n : Int)
  | float (q : ℚ)
  deriving DecidableEq, Repr

/-! ### String primitives over `List Char` -/

/-- Strip leading and trailing whitespace, as Python `str.strip()` with no
argument does on the ASCII whitespace the sources contain. -/
def trimChars (cs : List Char) : List Char :=
  ((cs.dropWhile Char.isWhitespace).reverse.dropWhile Char.isWhitespace).reverse

/-- `str.strip()` on a Lean string. -/
def strTrim (s : String) : String :=
  ⟨trimChars s.data⟩

/-- If `cs` begins with `sep`, return the remainder after `sep`. -/
def dropSep : List Char → List Char → Option (List Char)
  | [], rest => some rest
  | _ :: _, [] => none
  | s :: ss, c :: cc => if c = s then dropSep ss cc else none

/-- Split off the first occurrence of `sep` in `cs`: returns the part before
and the part after, or `none` when `sep` does not occur. -/
def splitFirst (sep : List Char) : List Char → Option (List Char × List Char)
  | [] =>
    match dropSep sep [] with
    | some rest => some ([], rest)
    | none => none
  | c :: cc =>
    match dropSep sep (c :: cc) with
    | some rest => some ([], rest)
    | none =>
      match splitFirst sep cc with
      | some (b, a) => some (c :: b, a)
      | none => none

/-- Fuelled worker for `splitOnChars`: repeatedly split off the leftmost
occurrence of the separator.  The fuel is always at least the length of the
input plus one, which bounds the number of non-overlapping occurrences. -/
def splitOnCharsFuel (sep : List Char) : Nat → List Char → List (List Char)
  | 0, cs => [cs]
  | fuel + 1, cs =>
    match splitFirst sep cs with
    | none => [cs]
    | some (b, a) => b :: splitOnCharsFuel sep fuel a

/-- Python `s.split(sep)` for a non-empty separator: non-overlapping,
left-to-right; the whole string when the separator never occurs. -/
def splitOnChars (sep cs : List Char) : List (List Char) :=
  splitOnCharsFuel sep (cs.length + 1) cs

/-- Python `s.split(sep)` on Lean strings. -/
def strSplitOn (s sep : String) : List String :=
  (splitOnChars sep.data s.data).map String.mk

/-- Numeric value of a decimal digit character. -/
def digitVal (c : Char) : Nat := c.toNat - 48

/-- True when every character is a decimal digit (vacuously on empty). -/
def allDigits (cs : List Char) : Bool := cs.all Char.isDigit

/-- Value of a non-empty digit string read in base ten. -/
def digitsToNat (cs : List Char) : Nat :=
  cs.foldl (fun n c => n * 10 + digitVal c) 0

/-! ### Python `float()` on finite decimal literals

`parse_integer_value` and the TOP POSTS numeric coercions call Python
`float(...)`.  The model covers the decimal-literal forms the sources can
meet: optional surrounding whitespace, optional sign, digits with an
optional decimal point, optional exponent.  Special spellings such as
`inf`/`nan` (whose subsequent `int()` raises errors the sources do not
catch) are rejected. -/

/-- Consume an optional leading sign, returning the sign as `1` or `-1`. -/
def takeSign : List Char → Int × List Char
  | '-' :: rest => (-1, rest)
  | '+' :: rest => (1, rest)
  | cs => (1, cs)

/-- Parse the mantissa part `digits[.digits]` (at least one digit overall)
into a signed numerator and a power-of-ten denominator, so that the mantissa
value is the fraction of the two: `digits(ip).digits(fp)` equals
`digits(ip ++ fp) / 10 ^ |fp|`. -/
def parseMantissaND (sgn : Int) (cs : List Char) : Option (Int × Nat) :=
  match splitOnChars ['.'] cs with
  | [ip] =>
    if ip ≠ [] ∧ allDigits ip then some (sgn * (digitsToNat ip : Int), 1) else none
  | [ip, fp] =>
    if allDigits ip ∧ allDigits fp ∧ (ip ≠ [] ∨ fp ≠ []) then
      some (sgn * (digitsToNat (ip ++ fp) : Int), 10 ^ fp.length)
    else none
  | _ => none

/-- Parse the exponent digits (with optional sign) of a float literal. -/
def parseExpDigits (cs : List Char) : Option Int :=
  let p := takeSign cs
  if p.2 ≠ [] ∧ allDigits p.2 then some (p.1 * (digitsToNat p.2 : Int)) else none

/-- Scale a numerator/denominator pair by `10 ^ e` and form the rational. -/
def scaledRat (nd : Int × Nat) (e : Int) : ℚ :=
  match e with
  | .ofNat k => mkRat (nd.1 * (10 : Int) ^ k) nd.2
  | .negSucc k => mkRat nd.1 (nd.2 * 10 ^ (k + 1))

/-- Python `float(s)` on a finite decimal literal, as an exact rational;
`none` when `float(s)` would raise `ValueError`. -/
def pyParseFloat (s : String) : Option ℚ :=
  let cs := trimChars s.data
  let p := takeSign cs
  match splitOnChars ['e'] (p.2.map Char.toLower) with
  | [m] => (parseMantissaND p.1 m).map (fun nd => mkRat nd.1 nd.2)
  | [m, ex] =>
    match parseMantissaND p.1 m, parseExpDigits ex with
    | some nd, some e => some (scaledRat nd e)
    | _, _ => none
  | _ => none

/-- Python `float(v)` on a raw cell value; `none` when it would raise. -/
def pyFloat : Value → Option ℚ
  | .str s => pyParseFloat s
  | .int n => some (n : ℚ)
  | .float q => some q

/-- Python truthiness of a raw cell value. -/
def pyTruthy : Value → Bool
  | .str s => !s.data.isEmpty
  | .int n => n != 0
  | .float q => q != 0

/-- Python `str(v)` on a raw cell value.  For a non-integral float the exact
shortest-round-trip decimal rendering of the IEEE value is approximated by
the rational rendering; no concrete value in this development exercises that
case. -/
def pyStr : Value → String
  | .str s => s
  | .int n => toString n
  | .float q => if q.den = 1 then toString q.num ++ ".0" else toString q

/-- Python `str(v)` where the cell may be null (`str(None) = "None"`). -/
def pyStrOfCell : Option Value → String
  | none => "None"
  | some v => pyStr v

/-! ### Calendar dates and `strptime("%m/%d/%Y")` -/

/-- Calendar date as produced by `datetime.strptime(..., "%m/%d/%Y").date()`. -/
structure Date where
  year : Nat
  month : Nat
  day : Nat
  deriving DecidableEq, Repr

/-- Encoding of a date as a single natural; because the parser guarantees
`month ≤ 12 < 100` and `day ≤ 31 < 100`, comparing keys is exactly the
lexicographic (year, month, day) comparison Python `date` uses. -/
def Date.key (d : Date) : Nat := d.year * 10000 + d.month * 100 + d.day

/-- Python `date` ordering (lexicographic on year, month, day). -/
def Date.le (a b : Date) : Prop := a.key ≤ b.key

instance : LE Date := ⟨Date.le⟩

instance (a b : Date) : Decidable (a ≤ b) :=
  inferInstanceAs (Decidable (a.key ≤ b.key))

/-- Gregorian leap-year test, as `datetime` validates day-of-month. -/
def leapYear (y : Nat) : Bool :=
  y % 4 = 0 && (y % 100 != 0 || y % 400 = 0)

/-- Days in a month, as `datetime` validates day-of-month. -/
def daysInMonth (y m : Nat) : Nat :=
  if m = 2 then (if leapYear y then 29 else 28)
  else if m = 4 ∨ m = 6 ∨ m = 9 ∨ m = 11 then 30
  else 31

/-- `datetime.strptime(s, "%m/%d/%Y").date()`: month and day of one or two
digits in range, year of exactly four digits, day valid for the month;
`none` when `strptime` would raise `ValueError`. -/
def parseMDY (s : String) : Option Date :=
  match splitOnChars ['/'] s.data with
  | [ms, ds, ys] =>
    if ms ≠ [] ∧ ms.length ≤ 2 ∧ allDigits ms ∧
       ds ≠ [] ∧ ds.length ≤ 2 ∧ allDigits ds ∧
       ys.length = 4 ∧ allDigits ys then
      let m := digitsToNat ms
      let d := digitsToNat ds
      let y := digitsToNat ys
      if 1 ≤ m ∧ m ≤ 12 ∧ 1 ≤ y ∧ 1 ≤ d ∧ d ≤ daysInMonth y m then
        some ⟨y, m, d⟩
      else none
    else none
  | _ => none

/-! ### Discovery parser (discovery_parser.py) -/

/-- Error taxonomy of the discovery pipeline.  The source raises `ValueError`
in all three cases with distinguishing messages; the constructors carry the
same diagnostic payloads the messages do. -/
inductive DErr where
  | missingFields (fields : List String)
  | dateRangeFormat (offending : String)
  | integerCoercion (offending : String)
  deriving DecidableEq, Repr

instance {ε α : Type} [DecidableEq ε] [DecidableEq α] : DecidableEq (Except ε α)
  | .ok a, .ok b => if h : a = b then .isTrue (by rw [h]) else .isFalse (by simp [h])
  | .error a, .error b => if h : a = b then .isTrue (by rw [h]) else .isFalse (by simp [h])
  | .ok _, .error _ => .isFalse (by simp)
  | .error _, .ok _ => .isFalse (by simp)

/-- `parse_date_range`: strip, split on the literal `" - "`, require exactly
two segments, parse each stripped segment with `strptime("%m/%d/%Y")`. -/
def parse_date_range (dateRangeStr : String) : Except DErr (Date × Date) :=
  match strSplitOn (strTrim dateRangeStr) " - " with
  | [s1, s2] =>
    match parseMDY (strTrim s1) with
    | none => .error (.dateRangeFormat s1)
    | some d1 =>
      match parseMDY (strTrim s2) with
      | none => .error (.dateRangeFormat s2)
      | some d2 => .ok (d1, d2)
  | _ => .error (.dateRangeFormat dateRangeStr)

/-- Truncation of a rational toward zero, as Python `int(float)`. -/
def ratTrunc (q : ℚ) : Int := q.num.tdiv (q.den : Int)

/-- `parse_integer_value`: for text, remove commas and strip, then
`int(float(...))`; for numbers, `int(float(value))`; `None` raises
`TypeError`, caught and re-raised as the coercion error. -/
def parse_integer_value (v : Option Value) : Except DErr Int :=
  match v with
  | some (.str s) =>
    match pyParseFloat ⟨trimChars (s.data.filter (fun c => c ≠ ','))⟩ with
    | some q => .ok (ratTrunc q)
    | none => .error (.integerCoercion s)
  | some (.int n) => .ok (ratTrunc (n : ℚ))
  | some (.float q) => .ok (ratTrunc q)
  | none => .error (.integerCoercion "None")

/-- `DiscoveryData`: the typed summary record the discovery parser returns. -/
structure DiscoveryData where
  start_date : Date
  end_date : Date
  total_impressions : Int
  members_reached : Int
  deriving DecidableEq, Repr

/-- A raw label-to-value mapping as read from the DISCOVERY sheet: a Python
dict modelled as an association list (keys unique); a present key with a
null cell is `(label, none)`. -/
abbrev RawLabelMap := List (String × Option Value)

/-- The three required DISCOVERY labels, in the order the source lists them. -/
def requiredFields : List String :=
  ["Overall Performance", "Impressions", "Members reached"]

/-- Python `field in discovery_cells`: key membership. -/
def hasKey (m : RawLabelMap) (k : String) : Bool :=
  m.any (fun kv => kv.1 == k)

/-- Python `discovery_cells[k]` for a present key (null cell gives `none`);
also `none` when the key is absent, which the callers rule out first. -/
def getVal (m : RawLabelMap) (k : String) : Option Value :=
  match m.find? (fun kv => kv.1 == k) with
  | some kv => kv.2
  | none => none

/-- `extract_discovery_data`: require the three labels (else the missing-field
error naming the absent ones), then parse the date range from the stringified
`Overall Performance` value and coerce the two counters to integers. -/
def extract_discovery_data (cells : RawLabelMap) : Except DErr DiscoveryData :=
  let missing := requiredFields.filter (fun f => !hasKey cells f)
  if missing ≠ [] then .error (.missingFields missing)
  else
    match parse_date_range (pyStrOfCell (getVal cells "Overall Performance")) with
    | .error e => .error e
    | .ok (sd, ed) =>
      match parse_integer_value (getVal cells "Impressions") with
      | .error e => .error e
      | .ok imp =>
        match parse_integer_value (getVal cells "Members reached") with
        | .error e => .error e
        | .ok mr => .ok ⟨sd, ed, imp, mr⟩

/-! ### TOP POSTS parser (top_posts_parser.py) -/

/-- A post record as built by `parse_top_posts_sheet`: a Python dict with
keys `url`, `publish_date`, `engagements`, `impressions`, and (only after
`get_top_posts` has run) `rank`. -/
structure Post where
  url : String
  publish_date : String
  engagements : ℚ
  impressions : ℚ
  rank : Option Nat
  deriving DecidableEq, Repr

/-- The lenient numeric coercion `float(v) if v else 0` guarded by
`try/except (ValueError, TypeError)`: falsy and unparseable values give 0. -/
def coerceNum (v : Value) : ℚ :=
  if pyTruthy v then (pyFloat v).getD 0 else 0

/-- The same coercion when the cell may be missing (`None` is falsy). -/
def coerceOptNum : Option Value → ℚ
  | none => 0
  | some v => coerceNum v

/-- One surviving row of the engagement view (columns A-C): url and publish
date are non-null, the engagement cell may still be null. -/
structure EngRow where
  url : Value
  pdate : Value
  eng : Option Value
  deriving DecidableEq, Repr

/-- One surviving row of the impression view (columns E and G): both cells
are non-null. -/
structure ImpRow where
  url : Value
  imp : Value
  deriving DecidableEq, Repr

/-- A sheet as the grid accessor exposes it: raw cell values addressed by
1-based row and column, plus the scan bound `ws.max_row`. -/
structure Grid where
  cell : Nat → Nat → Option Value
  maxRow : Nat

/-- The data row indices `range(4, ws.max_row + 1)`. -/
def scanRows (g : Grid) : List Nat := List.range' 4 (g.maxRow - 3)

/-- Engagement-view scan: stop at the first row whose three cells are all
null, keep rows with url and publish date present, skip the rest. -/
def collectEngRows (g : Grid) : List Nat → List EngRow
  | [] => []
  | r :: rs =>
    match g.cell r 1, g.cell r 2, g.cell r 3 with
    | none, none, none => []
    | some u, some d, e => ⟨u, d, e⟩ :: collectEngRows g rs
    | _, _, _ => collectEngRows g rs

/-- Impression-view scan: stop at the first row with both cells null, keep
rows with both present, skip the rest. -/
def collectImpRows (g : Grid) : List Nat → List ImpRow
  | [] => []
  | r :: rs =>
    match g.cell r 5, g.cell r 7 with
    | none, none => []
    | some u, some i => ⟨u, i⟩ :: collectImpRows g rs
    | _, _ => collectImpRows g rs

/-- Python dict assignment `posts[u] = p` on the insertion-ordered list: an
existing entry for `u` is replaced in place, a fresh key is appended. -/
def setPost (u : String) (p : Post) : List Post → List Post
  | [] => [p]
  | q :: qs => if q.url = u then p :: qs else q :: setPost u p qs

/-- Effect of one engagement-view row: seed (or overwrite) the record for
its url with the engagement data and `impressions = 0`. -/
def engStep (state : List Post) (row : EngRow) : List Post :=
  let u := pyStr row.url
  setPost u ⟨u, pyStr row.pdate, coerceOptNum row.eng, 0, none⟩ state

/-- Python `posts[u]["impressions"] = x` when `u` is present, else append the
impression-only record with empty publish date and zero engagements. -/
def updImp (u : String) (x : ℚ) : List Post → List Post
  | [] => [⟨u, "", 0, x, none⟩]
  | q :: qs =>
    if q.url = u then { q with impressions := x } :: qs else q :: updImp u x qs

/-- Effect of one impression-view row. -/
def impStep (state : List Post) (row : ImpRow) : List Post :=
  updImp (pyStr row.url) (coerceNum row.imp) state

/-- Process all engagement-view rows in order. -/
def processEng (state : List Post) (rows : List EngRow) : List Post :=
  rows.foldl engStep state

/-- Process all impression-view rows in order. -/
def processImp (state : List Post) (rows : List ImpRow) : List Post :=
  rows.foldl impStep state

/-- The merged url-keyed mapping, in insertion order (`posts.values()`). -/
def mergeViews (g : Grid) : List Post :=
  processImp (processEng [] (collectEngRows g (scanRows g)))
    (collectImpRows g (scanRows g))

/-- Stable insertion of a record into a list sorted by engagements
descending: the record moves left past strictly smaller engagements only, so
earlier records with equal engagements stay in front. -/
def insertByEng (p : Post) : List Post → List Post
  | [] => [p]
  | q :: qs =>
    if p.engagements < q.engagements then q :: insertByEng p qs
    else p :: q :: qs

/-- Python `list.sort(key=engagements, reverse=True)`: a stable sort by
engagements descending, here as an insertion sort, which is stable for the
same comparison. -/
def sortByEngDesc : List Post → List Post
  | [] => []
  | p :: ps => insertByEng p (sortByEngDesc ps)

/-- `parse_top_posts_sheet` after the grid has been opened: merge the two
views and sort by engagements descending. -/
def parse_top_posts_sheet (g : Grid) : List Post :=
  sortByEngDesc (mergeViews g)

/-- Assign ranks `k, k+1, ...` to the records of a list in order. -/
def assignRanks : Nat → List Post → List Post
  | _, [] => []
  | k, p :: ps => { p with rank := some k } :: assignRanks (k + 1) ps

/-- The `top(n)` operation: take the first `n` sorted records and assign
dense 1-based ranks over that slice (`get_top_posts` is the instance
`n = 6`, the only value the source uses). -/
def top_n (n : Nat) (posts : List Post) : List Post :=
  assignRanks 1 (posts.take n)

/-- `get_top_posts`: the value the call returns. -/
def get_top_posts (posts : List Post) : List Post :=
  top_n 6 posts

/-- The contents of the argument list after `get_top_posts` returns.  The
source takes the slice `posts[:6]` (a copy of the list whose elements alias
the original dicts) and then writes `post["rank"] = idx` into each of those
dicts, so the caller observes the first `min(6, len)` records mutated with
ranks and the rest untouched. -/
def get_top_posts_arg_after (posts : List Post) : List Post :=
  top_n 6 posts ++ posts.drop 6

/-! ### Helper lemmas on list indexing -/

theorem ratTrunc_intCast (n : Int) : ratTrunc (n : ℚ) = n := by
  simp [ratTrunc, Rat.num_intCast, Rat.den_intCast, Int.tdiv_one]

theorem assignRanks_get? (l : List Post) :
    ∀ (k i : Nat), (assignRanks k l)[i]? =
      l[i]?.map (fun p => { p with rank := some (k + i) }) := by
  induction l with
  | nil => intro k i; simp [assignRanks]
  | cons p ps ih =>
    intro k i
    cases i with
    | zero => simp [assignRanks]
    | succ j =>
      have h : k + 1 + j = k + (j + 1) := by omega
      simp [assignRanks, ih (k + 1) j, h]

theorem take_get? (l : List Post) :
    ∀ n i, (l.take n)[i]? = if i < n then l[i]? else none := by
  induction l with
  | nil => intro n i; simp
  | cons p ps ih =>
    intro n i
    cases n with
    | zero => simp
    | succ m =>
      cases i with
      | zero => simp
      | succ j => simpa [Nat.succ_lt_succ_iff] using ih m j

theorem append_get? (l m : List Post) :
    ∀ i, (l ++ m)[i]? = if i < l.length then l[i]? else m[i - l.length]? := by
  induction l with
  | nil => intro i; simp
  | cons p ps ih =>
    intro i
    cases i with
    | zero => simp
    | succ j => simpa [Nat.succ_lt_succ_iff] using ih j

theorem drop_get? (l : List Post) :
    ∀ n i, (l.drop n)[i]? = l[n + i]? := by
  induction l with
  | nil => intro n i; simp
  | cons p ps ih =>
    intro n i
    cases n with
    | zero => simp
    | succ m =>
      have h : m + 1 + i = m + i + 1 := by omega
      simp [ih m i, h]

theorem get?_none_of_le (l : List Post) :
    ∀ i, l.length ≤ i → l[i]? = none := by
  induction l with
  | nil => intro i _; simp
  | cons p ps ih =>
    intro i h
    cases i with
    | zero => simp at h
    | succ j => simpa using ih j (by simpa using h)

theorem assignRanks_length (l : List Post) : ∀ k, (assignRanks k l).length = l.length := by
  induction l with
  | nil => intro k; simp [assignRanks]
  | cons p ps ih => intro k; simp [assignRanks, ih]

theorem top_n_length (posts : List Post) (n : Nat) :
    (top_n n posts).length = min n posts.length := by
  simp [top_n, assignRanks_length]

/-- C4: integer coercion is format-agnostic and idempotent: the comma-grouped
text, the float, and the plain text forms of 857000 all coerce to the
integer 857000, and coercing the integer output of any successful coercion
returns that same integer. -/
theorem parse_integer_value_format_agnostic_idem :
    parse_integer_value (some (.str "857,000")) = .ok 857000 ∧
    parse_integer_value (some (.float 857000)) = .ok 857000 ∧
    parse_integer_value (some (.str "857000")) = .ok 857000 ∧
    ∀ v n, parse_integer_value v = .ok n →
      parse_integer_value (some (.int n)) = .ok n := by
  refine ⟨by decide, by decide, by decide, ?_⟩
  intro v n _
  show Except.ok (ratTrunc (n : ℚ)) = Except.ok n
  rw [ratTrunc_intCast]

/-- C4 witness: the idempotence conjunct applied to the concrete coercion of
the comma-grouped text form. -/
theorem parse_integer_value_idem_witness :
    parse_integer_value (some (.int 857000)) = .ok 857000 :=
  parse_integer_value_format_agnostic_idem.2.2.2 (some (.str "857,000")) 857000 (by decide)

/-- C3: `top(n)` returns exactly the first `min(n, length)` entries of its
input in input order, assigning dense 1-based ranks over the truncated slice
only; in particular on engagements `[40, 40, 10, 5]` with `n = 3` the three
highest entries get ranks `[1, 2, 3]` with tie order preserved from the
input (`get_top_posts` is the `n = 6` instance). -/
theorem top_n_takes_slice_and_assigns_dense_ranks :
    (∀ (posts : List Post) (n i : Nat),
      (top_n n posts)[i]? =
        if i < n then posts[i]?.map (fun p => { p with rank := some (i + 1) })
        else none) ∧
    top_n 3 [⟨"a", "", 40, 0, none⟩, ⟨"b", "", 40, 0, none⟩,
             ⟨"c", "", 10, 0, none⟩, ⟨"d", "", 5, 0, none⟩] =
      [⟨"a", "", 40, 0, some 1⟩, ⟨"b", "", 40, 0, some 2⟩, ⟨"c", "", 10, 0, some 3⟩] := by
  constructor
  · intro posts n i
    rw [top_n, assignRanks_get?, take_get?, apply_ite (Option.map _)]
    simp [Nat.add_comm]
  · decide

/-- C9 counterexample: `get_top_posts` mutates the records of its argument
list in place: after the call the caller sees a rank written into the first
record, so the argument contents are not left unchanged. -/
theorem get_top_posts_mutates_argument :
    get_top_posts_arg_after [⟨"a", "", 1, 2, none⟩] ≠ [⟨"a", "", 1, 2, none⟩] := by
  decide

/-- C9 amended: `get_top_posts` preserves the argument list structure and
every field of every record except that it writes rank `i + 1` into the
record at each position `i < 6`; records from position 6 on are untouched. -/
theorem get_top_posts_arg_after_shape :
    ∀ (posts : List Post) (i : Nat),
      (get_top_posts_arg_after posts)[i]? =
        if i < 6 then posts[i]?.map (fun p => { p with rank := some (i + 1) })
        else posts[i]? := by
  intro posts i
  rw [get_top_posts_arg_after, append_get?, top_n_length]
  by_cases h : i < min 6 posts.length
  · rw [if_pos h, top_n, assignRanks_get?, take_get?,
      if_pos (by omega : i < 6), if_pos (by omega : i < 6)]
    simp [Nat.add_comm]
  · rw [if_neg h, drop_get?]
    by_cases h6 : posts.length ≤ 6
    · have hlen : posts.length ≤ i := by omega
      rw [get?_none_of_le posts i hlen,
        get?_none_of_le posts (6 + (i - min 6 posts.length)) (by omega)]
      simp
    · have : 6 + (i - min 6 posts.length) = i := by omega
      rw [this, if_neg (by omega : ¬ i < 6)]

/-! ### Error-shape lemmas for the discovery pipeline -/

theorem parse_date_range_error_shape (s : String) :
    ∀ e, parse_date_range s = .error e → ∃ t, e = DErr.dateRangeFormat t := by
  intro e h
  unfold parse_date_range at h
  split at h
  · split at h
    · injection h with h1
      exact ⟨_, h1.symm⟩
    · split at h
      · injection h with h1
        exact ⟨_, h1.symm⟩
      · cases h
  · injection h with h1
    exact ⟨_, h1.symm⟩

theorem parse_integer_value_error_shape (v : Option Value) :
    ∀ e, parse_integer_value v = .error e → ∃ t, e = DErr.integerCoercion t := by
  intro e h
  unfold parse_integer_value at h
  split at h
  · split at h
    · cases h
    · injection h with h1
      exact ⟨_, h1.symm⟩
  · cases h
  · cases h
  · injection h with h1
    exact ⟨_, h1.symm⟩

theorem extract_discovery_no_missing (m : RawLabelMap)
    (hmiss : requiredFields.filter (fun f => !hasKey m f) = []) :
    ∀ s, extract_discovery_data m ≠ .error (.missingFields s) := by
  intro s h
  unfold extract_discovery_data at h
  rw [if_neg (by simp [hmiss])] at h
  split at h
  · rename_i e heq
    injection h with h1
    obtain ⟨t, ht⟩ := parse_date_range_error_shape _ _ heq
    rw [ht] at h1
    cases h1
  · split at h
    · rename_i e heq
      injection h with h1
      obtain ⟨t, ht⟩ := parse_integer_value_error_shape _ _ heq
      rw [ht] at h1
      cases h1
    · split at h
      · rename_i e heq
        injection h with h1
        obtain ⟨t, ht⟩ := parse_integer_value_error_shape _ _ heq
        rw [ht] at h1
        cases h1
      · cases h

/-- C2 counterexample: a DISCOVERY mapping whose date range lists the later
date first is accepted by `extract_discovery_data`, and the returned summary
violates `start_date ≤ end_date`. -/
theorem extract_discovery_accepts_reversed_range :
    extract_discovery_data
      [("Overall Performance", some (.str "11/10/2025 - 11/11/2024")),
       ("Impressions", some (.float 857000)),
       ("Members reached", some (.str "297,771"))] =
      .ok ⟨⟨2025, 11, 10⟩, ⟨2024, 11, 11⟩, 857000, 297771⟩ ∧
    ¬ ((⟨2025, 11, 10⟩ : Date) ≤ ⟨2024, 11, 11⟩) :=
  ⟨by decide, by decide⟩

/-- C2 amended: the extraction performs no ordering check: it returns exactly
the two dates `parse_date_range` produced from the `Overall Performance`
text, first segment as `start_date` and second as `end_date`, so
`start_date ≤ end_date` holds exactly when the source range is in order. -/
theorem extract_discovery_dates_pass_through :
    ∀ (m : RawLabelMap) (d : DiscoveryData), extract_discovery_data m = .ok d →
      parse_date_range (pyStrOfCell (getVal m "Overall Performance")) =
        .ok (d.start_date, d.end_date) := by
  intro m d h
  unfold extract_discovery_data at h
  by_cases hm : requiredFields.filter (fun f => !hasKey m f) = []
  · simp only [hm] at h
    rw [if_neg (by simp)] at h
    split at h
    · cases h
    · split at h
      · cases h
      · split at h
        · cases h
        · injection h with h1
          subst h1
          assumption
  · simp only [] at h
    rw [if_pos hm] at h
    cases h

/-- C2 witness: the pass-through theorem at a concrete in-order mapping. -/
theorem extract_discovery_dates_witness :
    parse_date_range
      (pyStrOfCell (getVal
        [("Overall Performance", some (Value.str "11/11/2024 - 11/10/2025")),
         ("Impressions", some (Value.float 857000)),
         ("Members reached", some (Value.str "297,771"))] "Overall Performance")) =
      .ok (⟨2024, 11, 11⟩, ⟨2025, 11, 10⟩) :=
  extract_discovery_dates_pass_through _
    ⟨⟨2024, 11, 11⟩, ⟨2025, 11, 10⟩, 857000, 297771⟩ (by decide)

/-- C5: `extract_discovery_data` fails with the missing-field error exactly
when at least one of the three required labels is absent as a key (a label
present with a null value counts as present), and the error names exactly
the missing labels. -/
theorem extract_discovery_missing_iff :
    ∀ m : RawLabelMap,
      ((∃ s, extract_discovery_data m = .error (.missingFields s)) ↔
        ∃ f ∈ requiredFields, hasKey m f = false) ∧
      (∀ s, extract_discovery_data m = .error (.missingFields s) →
        s = requiredFields.filter (fun f => !hasKey m f)) := by
  intro m
  have hbridge : (requiredFields.filter (fun f => !hasKey m f) ≠ []) ↔
      ∃ f ∈ requiredFields, hasKey m f = false := by
    rw [Ne, List.filter_eq_nil_iff]
    push_neg
    simp
  by_cases hmiss : requiredFields.filter (fun f => !hasKey m f) = []
  · have hnm := extract_discovery_no_missing m hmiss
    refine ⟨⟨fun hex => ?_, fun hex => ?_⟩, fun s hs => absurd hs (hnm s)⟩
    · obtain ⟨s, hs⟩ := hex
      exact absurd hs (hnm s)
    · exact absurd hmiss (hbridge.mpr hex)
  · have hex : extract_discovery_data m =
        .error (.missingFields (requiredFields.filter (fun f => !hasKey m f))) := by
      unfold extract_discovery_data
      simp only []
      rw [if_pos hmiss]
    refine ⟨⟨fun _ => hbridge.mp hmiss, fun _ => ⟨_, hex⟩⟩, fun s hs => ?_⟩
    rw [hex] at hs
    injection hs with h1
    injection h1 with h2
    exact h2.symm

/-- C5 witness: the exact-naming conjunct applied to a mapping missing two
of the three labels. -/
theorem extract_discovery_missing_witness :
    (["Overall Performance", "Members reached"] : List String) =
      requiredFields.filter (fun f => !hasKey [("Impressions", some (Value.int 5))] f) :=
  (extract_discovery_missing_iff [("Impressions", some (Value.int 5))]).2 _ (by decide)

/-- C6: `parse_date_range` fails exactly when splitting the stripped text on
the literal `" - "` does not yield two segments or when either stripped
segment does not parse under the month/day/4-digit-year pattern; every
failure is the date-range-format error (carrying the offending full string
or segment), and in particular `"bad-format"` fails extraction with that
error and with no other error kind. -/
theorem parse_date_range_error_classification :
    (∀ s : String,
      ((∃ e, parse_date_range s = .error e) ↔
        match strSplitOn (strTrim s) " - " with
        | [a, b] => parseMDY (strTrim a) = none ∨ parseMDY (strTrim b) = none
        | _ => True) ∧
      (∀ e, parse_date_range s = .error e → ∃ t, e = DErr.dateRangeFormat t)) ∧
    parse_date_range "bad-format" = .error (.dateRangeFormat "bad-format") ∧
    extract_discovery_data
      [("Overall Performance", some (.str "bad-format")),
       ("Impressions", some (.float 857000)),
       ("Members reached", some (.str "297,771"))] =
      .error (.dateRangeFormat "bad-format") := by
  refine ⟨fun s => ⟨?_, parse_date_range_error_shape s⟩, by decide, by decide⟩
  rcases hsp : strSplitOn (strTrim s) " - " with _ | ⟨a, _ | ⟨b, _ | ⟨c, rest⟩⟩⟩
  · simp only [parse_date_range, hsp]
    exact ⟨fun _ => trivial, fun _ => ⟨_, rfl⟩⟩
  · simp only [parse_date_range, hsp]
    exact ⟨fun _ => trivial, fun _ => ⟨_, rfl⟩⟩
  · simp only [parse_date_range, hsp]
    rcases hma : parseMDY (strTrim a) with _ | d1
    · simp only [hma]
      exact ⟨fun _ => Or.inl trivial, fun _ => ⟨_, rfl⟩⟩
    · rcases hmb : parseMDY (strTrim b) with _ | d2
      · simp only [hma, hmb]
        exact ⟨fun _ => Or.inr trivial, fun _ => ⟨_, rfl⟩⟩
      · simp only [hma, hmb]
        constructor
        · rintro ⟨e, he⟩
          cases he
        · rintro (h | h) <;> simp at h
  · simp only [parse_date_range, hsp]
    exact ⟨fun _ => trivial, fun _ => ⟨_, rfl⟩⟩

/-- C6 witness: the error-shape conjunct applied to the concrete failing
input `"bad-format"`. -/
theorem parse_date_range_error_witness :
    ∃ t, DErr.dateRangeFormat "bad-format" = DErr.dateRangeFormat t :=
  (parse_date_range_error_classification.1 "bad-format").2
    (DErr.dateRangeFormat "bad-format") (by decide)

/-! ### Permutation, sortedness and stability of the engagement sort -/

theorem insertByEng_perm (p : Post) : ∀ l, (insertByEng p l).Perm (p :: l) := by
  intro l
  induction l with
  | nil => simp [insertByEng]
  | cons q qs ih =>
    rw [insertByEng]
    by_cases h : p.engagements < q.engagements
    · rw [if_pos h]
      exact (List.Perm.cons q ih).trans (List.Perm.swap p q qs)
    · rw [if_neg h]

theorem sortByEngDesc_perm : ∀ l, (sortByEngDesc l).Perm l := by
  intro l
  induction l with
  | nil => simp [sortByEngDesc]
  | cons p ps ih =>
    exact (insertByEng_perm p (sortByEngDesc ps)).trans (List.Perm.cons p ih)

theorem pairwise_insertByEng (p : Post) :
    ∀ l, List.Pairwise (fun a b => b.engagements ≤ a.engagements) l →
      List.Pairwise (fun a b => b.engagements ≤ a.engagements) (insertByEng p l) := by
  intro l hl
  induction l with
  | nil => simp [insertByEng]
  | cons q qs ih =>
    rcases List.pairwise_cons.mp hl with ⟨hq, hqs⟩
    rw [insertByEng]
    by_cases h : p.engagements < q.engagements
    · rw [if_pos h]
      refine List.pairwise_cons.mpr ⟨?_, ih hqs⟩
      intro x hx
      rcases List.mem_cons.mp ((insertByEng_perm p qs).mem_iff.mp hx) with hxp | hxqs
      · rw [hxp]
        exact le_of_lt h
      · exact hq x hxqs
    · rw [if_neg h]
      have hqp : q.engagements ≤ p.engagements := le_of_not_lt h
      refine List.pairwise_cons.mpr ⟨?_, hl⟩
      intro x hx
      rcases List.mem_cons.mp hx with hxq | hxqs
      · rw [hxq]
        exact hqp
      · exact le_trans (hq x hxqs) hqp

theorem sortByEngDesc_pairwise :
    ∀ l, List.Pairwise (fun a b => b.engagements ≤ a.engagements) (sortByEngDesc l) := by
  intro l
  induction l with
  | nil => simp [sortByEngDesc]
  | cons p ps ih => exact pairwise_insertByEng p _ ih

theorem filter_insertByEng_ne (p : Post) (c : ℚ) (hp : p.engagements ≠ c) :
    ∀ l, (insertByEng p l).filter (fun x => x.engagements == c) =
      l.filter (fun x => x.engagements == c) := by
  intro l
  induction l with
  | nil => simp [insertByEng, hp]
  | cons q qs ih =>
    rw [insertByEng]
    by_cases h : p.engagements < q.engagements
    · rw [if_pos h]
      simp [List.filter_cons, ih]
    · rw [if_neg h]
      simp [List.filter_cons, hp]

theorem filter_insertByEng_eq (p : Post) (c : ℚ) (hp : p.engagements = c) :
    ∀ l, List.Pairwise (fun a b => b.engagements ≤ a.engagements) l →
      (insertByEng p l).filter (fun x => x.engagements == c) =
        p :: l.filter (fun x => x.engagements == c) := by
  intro l hl
  induction l with
  | nil => simp [insertByEng, hp]
  | cons q qs ih =>
    rcases List.pairwise_cons.mp hl with ⟨hq, hqs⟩
    rw [insertByEng]
    by_cases h : p.engagements < q.engagements
    · rw [if_pos h]
      have hqc : q.engagements ≠ c := by
        rw [← hp]
        exact ne_of_gt h
      simp [List.filter_cons, hqc, ih hqs]
    · rw [if_neg h]
      simp [List.filter_cons, hp]

theorem sortByEngDesc_filter (c : ℚ) :
    ∀ l, (sortByEngDesc l).filter (fun x => x.engagements == c) =
      l.filter (fun x => x.engagements == c) := by
  intro l
  induction l with
  | nil => rfl
  | cons p ps ih =>
    rw [sortByEngDesc]
    by_cases hp : p.engagements = c
    · rw [filter_insertByEng_eq p c hp _ (sortByEngDesc_pairwise ps), ih, List.filter_cons]
      simp [hp]
    · rw [filter_insertByEng_ne p c hp, ih, List.filter_cons]
      simp [hp]

/-- C8: the list returned by the TOP POSTS extraction is sorted by
engagements descending, and the sort is stable: for each engagement value,
the records carrying it appear in exactly the order the merged mapping
lists them, which is the order their URLs were first encountered. -/
theorem parse_top_posts_sorted_and_stable :
    ∀ g : Grid,
      List.Pairwise (fun a b => b.engagements ≤ a.engagements)
        (parse_top_posts_sheet g) ∧
      ∀ c : ℚ, (parse_top_posts_sheet g).filter (fun x => x.engagements == c) =
        (mergeViews g).filter (fun x => x.engagements == c) := by
  intro g
  unfold parse_top_posts_sheet
  exact ⟨sortByEngDesc_pairwise _, fun c => sortByEngDesc_filter c _⟩

/-! ### Key uniqueness of the url-keyed merge -/

theorem setPost_url_mem (u : String) (p : Post) (hp : p.url = u) :
    ∀ l x, x ∈ (setPost u p l).map Post.url → x = u ∨ x ∈ l.map Post.url := by
  intro l
  induction l with
  | nil =>
    intro x hx
    simp [setPost] at hx
    exact Or.inl (by rw [hx, hp])
  | cons q qs ih =>
    intro x hx
    rw [setPost] at hx
    by_cases h : q.url = u
    · rw [if_pos h] at hx
      rcases List.mem_cons.mp hx with h1 | h1
      · exact Or.inl (by rw [h1, hp])
      · exact Or.inr (List.mem_cons.mpr (Or.inr h1))
    · rw [if_neg h] at hx
      rcases List.mem_cons.mp hx with h1 | h1
      · exact Or.inr (List.mem_cons.mpr (Or.inl h1))
      · rcases ih x h1 with h2 | h2
        · exact Or.inl h2
        · exact Or.inr (List.mem_cons.mpr (Or.inr h2))

theorem setPost_nodup (u : String) (p : Post) (hp : p.url = u) :
    ∀ l, (l.map Post.url).Nodup → ((setPost u p l).map Post.url).Nodup := by
  intro l
  induction l with
  | nil =>
    intro _
    simp [setPost]
  | cons q qs ih =>
    intro hl
    have hl2 : (q.url :: qs.map Post.url).Nodup := by simpa using hl
    rcases List.nodup_cons.mp hl2 with ⟨hq, hqs⟩
    rw [setPost]
    by_cases h : q.url = u
    · rw [if_pos h]
      refine List.nodup_cons.mpr ⟨?_, hqs⟩
      rw [hp, ← h]
      exact hq
    · rw [if_neg h]
      refine List.nodup_cons.mpr ⟨?_, ih hqs⟩
      intro hc
      rcases setPost_url_mem u p hp qs q.url hc with h1 | h1
      · exact h h1
      · exact hq h1

theorem updImp_url_mem (u : String) (x : ℚ) :
    ∀ l y, y ∈ (updImp u x l).map Post.url → y = u ∨ y ∈ l.map Post.url := by
  intro l
  induction l with
  | nil =>
    intro y hy
    simp [updImp] at hy
    exact Or.inl hy
  | cons q qs ih =>
    intro y hy
    rw [updImp] at hy
    by_cases h : q.url = u
    · rw [if_pos h] at hy
      rcases List.mem_cons.mp hy with h1 | h1
      · exact Or.inr (List.mem_cons.mpr (Or.inl h1))
      · exact Or.inr (List.mem_cons.mpr (Or.inr h1))
    · rw [if_neg h] at hy
      rcases List.mem_cons.mp hy with h1 | h1
      · exact Or.inr (List.mem_cons.mpr (Or.inl h1))
      · rcases ih y h1 with h2 | h2
        · exact Or.inl h2
        · exact Or.inr (List.mem_cons.mpr (Or.inr h2))

theorem updImp_nodup (u : String) (x : ℚ) :
    ∀ l, (l.map Post.url).Nodup → ((updImp u x l).map Post.url).Nodup := by
  intro l
  induction l with
  | nil =>
    intro _
    simp [updImp]
  | cons q qs ih =>
    intro hl
    have hl2 : (q.url :: qs.map Post.url).Nodup := by simpa using hl
    rcases List.nodup_cons.mp hl2 with ⟨hq, hqs⟩
    rw [updImp]
    by_cases h : q.url = u
    · rw [if_pos h]
      exact List.nodup_cons.mpr ⟨by simpa using hq, hqs⟩
    · rw [if_neg h]
      refine List.nodup_cons.mpr ⟨?_, ih hqs⟩
      intro hc
      rcases updImp_url_mem u x qs q.url hc with h1 | h1
      · exact h h1
      · exact hq h1

theorem processEng_nodup :
    ∀ (rows : List EngRow) (l : List Post), (l.map Post.url).Nodup →
      ((processEng l rows).map Post.url).Nodup := by
  intro rows
  induction rows with
  | nil =>
    intro l hl
    simpa [processEng] using hl
  | cons r rs ih =>
    intro l hl
    show ((processEng (engStep l r) rs).map Post.url).Nodup
    exact ih _ (setPost_nodup (pyStr r.url)
      ⟨pyStr r.url, pyStr r.pdate, coerceOptNum r.eng, 0, none⟩ rfl l hl)

theorem processImp_nodup :
    ∀ (rows : List ImpRow) (l : List Post), (l.map Post.url).Nodup →
      ((processImp l rows).map Post.url).Nodup := by
  intro rows
  induction rows with
  | nil =>
    intro l hl
    simpa [processImp] using hl
  | cons r rs ih =>
    intro l hl
    show ((processImp (impStep l r) rs).map Post.url).Nodup
    exact ih _ (updImp_nodup _ _ l hl)

/-- C10: the urls of the records returned by the TOP POSTS extraction are
pairwise distinct: the result is built from a mapping keyed by the
stringified URL, so repeated URLs replace earlier entries instead of
producing duplicates. -/
theorem parse_top_posts_urls_nodup :
    ∀ g : Grid, ((parse_top_posts_sheet g).map Post.url).Nodup := by
  intro g
  have hm : ((mergeViews g).map Post.url).Nodup := by
    unfold mergeViews
    exact processImp_nodup _ _ (processEng_nodup _ [] (by simp))
  have hperm := (sortByEngDesc_perm (mergeViews g)).map Post.url
  unfold parse_top_posts_sheet
  exact hperm.nodup_iff.mpr hm

/-! ### Sign behaviour of the lenient numeric coercions -/

/-- Statement-side predicate: `float()` on the value either fails or yields
a non-negative number. -/
def nonnegValB (v : Value) : Bool :=
  match pyFloat v with
  | some q => decide (0 ≤ q)
  | none => true

/-- Statement-side predicate on an optional cell: absent cells are fine. -/
def cellNonneg : Option Value → Bool
  | some v => nonnegValB v
  | none => true

/-- Statement-side hypothesis: every numeric cell the TOP POSTS scan can
coerce (column 3 and column 7 of the scanned rows) is non-negative. -/
def gridNonneg (g : Grid) : Prop :=
  ∀ r ∈ scanRows g, cellNonneg (g.cell r 3) = true ∧ cellNonneg (g.cell r 7) = true

instance (g : Grid) : Decidable (gridNonneg g) :=
  inferInstanceAs (Decidable (∀ r ∈ scanRows g,
    cellNonneg (g.cell r 3) = true ∧ cellNonneg (g.cell r 7) = true))

/-- The one-row grid whose engagement cell holds the negative number -5. -/
def negEngGrid : Grid :=
  ⟨fun r c =>
    if r = 4 ∧ c = 1 then some (.str "u")
    else if r = 4 ∧ c = 2 then some (.str "d")
    else if r = 4 ∧ c = 3 then some (.int (-5))
    else none, 4⟩

/-- The one-row grid whose engagement cell holds the number 5. -/
def posEngGrid : Grid :=
  ⟨fun r c =>
    if r = 4 ∧ c = 1 then some (.str "u")
    else if r = 4 ∧ c = 2 then some (.str "d")
    else if r = 4 ∧ c = 3 then some (.int 5)
    else none, 4⟩

theorem coerceNum_nonneg (v : Value) (h : nonnegValB v = true) : 0 ≤ coerceNum v := by
  rw [coerceNum]
  by_cases ht : pyTruthy v = true
  · rw [if_pos ht]
    rcases hf : pyFloat v with _ | q
    · simp [hf]
    · have hq : 0 ≤ q := by simpa [nonnegValB, hf] using h
      simpa [hf] using hq
  · rw [if_neg ht]

theorem coerceOptNum_nonneg (ov : Option Value) (h : cellNonneg ov = true) :
    0 ≤ coerceOptNum ov := by
  rcases ov with _ | v
  · exact le_refl 0
  · exact coerceNum_nonneg v h

theorem collectEngRows_eng_cells (g : Grid) :
    ∀ rows row, row ∈ collectEngRows g rows → ∃ r ∈ rows, row.eng = g.cell r 3 := by
  intro rows
  induction rows with
  | nil =>
    intro row hrow
    simp [collectEngRows] at hrow
  | cons r rs ih =>
    intro row hrow
    rw [collectEngRows] at hrow
    rcases h1 : g.cell r 1 with _ | u <;> rcases h2 : g.cell r 2 with _ | d <;>
      rcases h3 : g.cell r 3 with _ | e <;>
      simp only [h1, h2, h3] at hrow
    case none.none.none => exact absurd hrow (List.not_mem_nil row)
    case some.some.none =>
      rcases List.mem_cons.mp hrow with h | h
      · exact ⟨r, by simp, by rw [h]; exact h3.symm⟩
      · obtain ⟨r2, hr2, he⟩ := ih row h
        exact ⟨r2, by simp [hr2], he⟩
    case some.some.some =>
      rcases List.mem_cons.mp hrow with h | h
      · exact ⟨r, by simp, by rw [h]; exact h3.symm⟩
      · obtain ⟨r2, hr2, he⟩ := ih row h
        exact ⟨r2, by simp [hr2], he⟩
    all_goals
      obtain ⟨r2, hr2, he⟩ := ih row hrow
      exact ⟨r2, by simp [hr2], he⟩

theorem collectImpRows_imp_cells (g : Grid) :
    ∀ rows row, row ∈ collectImpRows g rows → ∃ r ∈ rows, g.cell r 7 = some row.imp := by
  intro rows
  induction rows with
  | nil =>
    intro row hrow
    simp [collectImpRows] at hrow
  | cons r rs ih =>
    intro row hrow
    rw [collectImpRows] at hrow
    rcases h5 : g.cell r 5 with _ | u <;> rcases h7 : g.cell r 7 with _ | i <;>
      simp only [h5, h7] at hrow
    case none.none => exact absurd hrow (List.not_mem_nil row)
    case some.some =>
      rcases List.mem_cons.mp hrow with h | h
      · exact ⟨r, by simp, by rw [h]; exact h7⟩
      · obtain ⟨r2, hr2, he⟩ := ih row h
        exact ⟨r2, by simp [hr2], he⟩
    all_goals
      obtain ⟨r2, hr2, he⟩ := ih row hrow
      exact ⟨r2, by simp [hr2], he⟩

theorem setPost_inv (u : String) (p : Post)
    (hp : 0 ≤ p.engagements ∧ 0 ≤ p.impressions) :
    ∀ l, (∀ x ∈ l, 0 ≤ x.engagements ∧ 0 ≤ x.impressions) →
      ∀ x ∈ setPost u p l, 0 ≤ x.engagements ∧ 0 ≤ x.impressions := by
  intro l
  induction l with
  | nil =>
    intro _ x hx
    simp [setPost] at hx
    rw [hx]
    exact hp
  | cons q qs ih =>
    intro hl x hx
    rw [setPost] at hx
    by_cases h : q.url = u
    · rw [if_pos h] at hx
      rcases List.mem_cons.mp hx with h1 | h1
      · rw [h1]
        exact hp
      · exact hl x (List.mem_cons.mpr (Or.inr h1))
    · rw [if_neg h] at hx
      rcases List.mem_cons.mp hx with h1 | h1
      · rw [h1]
        exact hl q (List.mem_cons.mpr (Or.inl rfl))
      · exact ih (fun y hy => hl y (List.mem_cons.mpr (Or.inr hy))) x h1

theorem updImp_inv (u : String) (c : ℚ) (hc : 0 ≤ c) :
    ∀ l, (∀ x ∈ l, 0 ≤ x.engagements ∧ 0 ≤ x.impressions) →
      ∀ x ∈ updImp u c l, 0 ≤ x.engagements ∧ 0 ≤ x.impressions := by
  intro l
  induction l with
  | nil =>
    intro _ x hx
    simp [updImp] at hx
    rw [hx]
    exact ⟨le_refl 0, hc⟩
  | cons q qs ih =>
    intro hl x hx
    rw [updImp] at hx
    by_cases h : q.url = u
    · rw [if_pos h] at hx
      rcases List.mem_cons.mp hx with h1 | h1
      · rw [h1]
        exact ⟨(hl q (List.mem_cons.mpr (Or.inl rfl))).1, hc⟩
      · exact hl x (List.mem_cons.mpr (Or.inr h1))
    · rw [if_neg h] at hx
      rcases List.mem_cons.mp hx with h1 | h1
      · rw [h1]
        exact hl q (List.mem_cons.mpr (Or.inl rfl))
      · exact ih (fun y hy => hl y (List.mem_cons.mpr (Or.inr hy))) x h1

theorem processEng_inv :
    ∀ (rows : List EngRow) (l : List Post),
      (∀ row ∈ rows, cellNonneg row.eng = true) →
      (∀ x ∈ l, 0 ≤ x.engagements ∧ 0 ≤ x.impressions) →
      ∀ x ∈ processEng l rows, 0 ≤ x.engagements ∧ 0 ≤ x.impressions := by
  intro rows
  induction rows with
  | nil =>
    intro l _ hl x hx
    exact hl x hx
  | cons r rs ih =>
    intro l hc hl x hx
    have hx2 : x ∈ processEng (engStep l r) rs := hx
    refine ih (engStep l r) (fun row hrow => hc row (List.mem_cons.mpr (Or.inr hrow)))
      ?_ x hx2
    exact setPost_inv (pyStr r.url)
      ⟨pyStr r.url, pyStr r.pdate, coerceOptNum r.eng, 0, none⟩
      ⟨coerceOptNum_nonneg r.eng (hc r (List.mem_cons.mpr (Or.inl rfl))), le_refl 0⟩ l hl

theorem processImp_inv :
    ∀ (rows : List ImpRow) (l : List Post),
      (∀ row ∈ rows, nonnegValB row.imp = true) →
      (∀ x ∈ l, 0 ≤ x.engagements ∧ 0 ≤ x.impressions) →
      ∀ x ∈ processImp l rows, 0 ≤ x.engagements ∧ 0 ≤ x.impressions := by
  intro rows
  induction rows with
  | nil =>
    intro l _ hl x hx
    exact hl x hx
  | cons r rs ih =>
    intro l hc hl x hx
    have hx2 : x ∈ processImp (impStep l r) rs := hx
    refine ih (impStep l r) (fun row hrow => hc row (List.mem_cons.mpr (Or.inr hrow)))
      ?_ x hx2
    exact updImp_inv (pyStr r.url) (coerceNum r.imp)
      (coerceNum_nonneg r.imp (hc r (List.mem_cons.mpr (Or.inl rfl)))) l hl

/-- C7 counterexample: a grid whose engagement cell holds -5 produces a
record with negative engagements, so the extraction does not guarantee
non-negative fields. -/
theorem parse_top_posts_negative_engagements :
    ∃ p, p ∈ parse_top_posts_sheet negEngGrid ∧ p.engagements < 0 :=
  ⟨⟨"u", "d", -5, 0, none⟩, by decide, by decide⟩

/-- C7 amended: absent or non-numeric cells do default the fields to 0, and
the extraction yields non-negative engagements and impressions whenever the
numeric cells of the scanned rows are non-negative; a negative numeric cell
however passes through unclamped. -/
theorem parse_top_posts_nonneg_of_nonneg_cells :
    (coerceOptNum none = 0 ∧ ∀ v, pyFloat v = none → coerceNum v = 0) ∧
    ∀ g : Grid, gridNonneg g → ∀ p ∈ parse_top_posts_sheet g,
      0 ≤ p.engagements ∧ 0 ≤ p.impressions := by
  refine ⟨⟨rfl, fun v hv => ?_⟩, fun g hg p hp => ?_⟩
  · rw [coerceNum, hv]
    by_cases ht : pyTruthy v = true
    · rw [if_pos ht]
      rfl
    · rw [if_neg ht]
  · have hmem : p ∈ mergeViews g := by
      unfold parse_top_posts_sheet at hp
      exact (sortByEngDesc_perm (mergeViews g)).mem_iff.mp hp
    unfold mergeViews at hmem
    refine processImp_inv _ _ ?_ (processEng_inv _ [] ?_ (by simp)) p hmem
    · intro row hrow
      obtain ⟨r, hr, hcell⟩ := collectImpRows_imp_cells g _ row hrow
      have h7 := (hg r hr).2
      rw [hcell] at h7
      exact h7
    · intro row hrow
      obtain ⟨r, hr, hcell⟩ := collectEngRows_eng_cells g _ row hrow
      rw [hcell]
      exact (hg r hr).1

/-- C7 witness: the amended theorem at the concrete non-negative one-row
grid, whose single record the extraction returns. -/
theorem parse_top_posts_nonneg_witness :
    0 ≤ (⟨"u", "d", 5, 0, none⟩ : Post).engagements ∧
    0 ≤ (⟨"u", "d", 5, 0, none⟩ : Post).impressions :=
  parse_top_posts_nonneg_of_nonneg_cells.2 posEngGrid (by decide)
    ⟨"u", "d", 5, 0, none⟩ (by decide)

/-! ### Order dependence of the dual-view merge -/

theorem setPost_find_same (v : String) (p : Post) (hp : p.url = v) :
    ∀ l, (setPost v p l).find? (fun x => x.url == v) = some p := by
  intro l
  induction l with
  | nil => simp [setPost, List.find?, hp]
  | cons q qs ih =>
    rw [setPost]
    by_cases h : q.url = v
    · rw [if_pos h]
      simp [List.find?, hp]
    · rw [if_neg h]
      rw [List.find?_cons_of_neg _ (by simp [h]), ih]

theorem setPost_find_ne (u v : String) (p : Post) (hne : v ≠ u) (hp : p.url = v) :
    ∀ l, (setPost v p l).find? (fun x => x.url == u) = l.find? (fun x => x.url == u) := by
  intro l
  induction l with
  | nil =>
    have hf : (p.url == u) = false := by simp [hp, hne]
    simp [setPost, List.find?, hf]
  | cons q qs ih =>
    rw [setPost]
    by_cases h : q.url = v
    · rw [if_pos h]
      rw [List.find?_cons_of_neg _ (by simp [hp, hne]),
        List.find?_cons_of_neg _ (by simp [h, hne])]
    · rw [if_neg h]
      by_cases hqu : q.url = u
      · rw [List.find?_cons_of_pos _ (by simp [hqu]), List.find?_cons_of_pos _ (by simp [hqu])]
      · rw [List.find?_cons_of_neg _ (by simp [hqu]), List.find?_cons_of_neg _ (by simp [hqu]), ih]

theorem updImp_find_same (u : String) (c : ℚ) :
    ∀ l, (updImp u c l).find? (fun x => x.url == u) =
      some (match l.find? (fun x => x.url == u) with
            | some q => { q with impressions := c }
            | none => ⟨u, "", 0, c, none⟩) := by
  intro l
  induction l with
  | nil => simp [updImp, List.find?]
  | cons q qs ih =>
    rw [updImp]
    by_cases h : q.url = u
    · rw [if_pos h]
      rw [List.find?_cons_of_pos _ (by simp [h]), List.find?_cons_of_pos _ (by simp [h])]
    · rw [if_neg h]
      rw [List.find?_cons_of_neg _ (by simp [h]), List.find?_cons_of_neg _ (by simp [h]), ih]

theorem updImp_find_ne (u v : String) (c : ℚ) (hne : v ≠ u) :
    ∀ l, (updImp v c l).find? (fun x => x.url == u) = l.find? (fun x => x.url == u) := by
  intro l
  induction l with
  | nil =>
    have hf : ((⟨v, "", 0, c, none⟩ : Post).url == u) = false := by simp [hne]
    simp [updImp, List.find?, hf]
  | cons q qs ih =>
    rw [updImp]
    by_cases h : q.url = v
    · rw [if_pos h]
      rw [List.find?_cons_of_neg _ (by simp [h, hne]),
        List.find?_cons_of_neg _ (by simp [h, hne])]
    · rw [if_neg h]
      by_cases hqu : q.url = u
      · rw [List.find?_cons_of_pos _ (by simp [hqu]), List.find?_cons_of_pos _ (by simp [hqu])]
      · rw [List.find?_cons_of_neg _ (by simp [hqu]), List.find?_cons_of_neg _ (by simp [hqu]), ih]

theorem processEng_find_congr (u : String) :
    ∀ (rows : List EngRow) (s t : List Post),
      s.find? (fun x => x.url == u) = t.find? (fun x => x.url == u) →
      (processEng s rows).find? (fun x => x.url == u) =
        (processEng t rows).find? (fun x => x.url == u) := by
  intro rows
  induction rows with
  | nil => intro s t h; exact h
  | cons r rs ih =>
    intro s t h
    show (processEng (engStep s r) rs).find? _ = (processEng (engStep t r) rs).find? _
    apply ih
    by_cases hru : pyStr r.url = u
    · subst hru
      rw [show engStep s r = setPost (pyStr r.url)
            ⟨pyStr r.url, pyStr r.pdate, coerceOptNum r.eng, 0, none⟩ s from rfl,
        show engStep t r = setPost (pyStr r.url)
            ⟨pyStr r.url, pyStr r.pdate, coerceOptNum r.eng, 0, none⟩ t from rfl,
        setPost_find_same (pyStr r.url) ⟨pyStr r.url, pyStr r.pdate, coerceOptNum r.eng, 0, none⟩ rfl s,
        setPost_find_same (pyStr r.url) ⟨pyStr r.url, pyStr r.pdate, coerceOptNum r.eng, 0, none⟩ rfl t]
    · rw [show engStep s r = setPost (pyStr r.url)
            ⟨pyStr r.url, pyStr r.pdate, coerceOptNum r.eng, 0, none⟩ s from rfl,
        show engStep t r = setPost (pyStr r.url)
            ⟨pyStr r.url, pyStr r.pdate, coerceOptNum r.eng, 0, none⟩ t from rfl,
        setPost_find_ne u (pyStr r.url) ⟨pyStr r.url, pyStr r.pdate, coerceOptNum r.eng, 0, none⟩ hru rfl s,
        setPost_find_ne u (pyStr r.url) ⟨pyStr r.url, pyStr r.pdate, coerceOptNum r.eng, 0, none⟩ hru rfl t]
      exact h

theorem processImp_find_congr (u : String) :
    ∀ (rows : List ImpRow) (s t : List Post),
      s.find? (fun x => x.url == u) = t.find? (fun x => x.url == u) →
      (processImp s rows).find? (fun x => x.url == u) =
        (processImp t rows).find? (fun x => x.url == u) := by
  intro rows
  induction rows with
  | nil => intro s t h; exact h
  | cons r rs ih =>
    intro s t h
    show (processImp (impStep s r) rs).find? _ = (processImp (impStep t r) rs).find? _
    apply ih
    by_cases hru : pyStr r.url = u
    · subst hru
      rw [show impStep s r = updImp (pyStr r.url) (coerceNum r.imp) s from rfl,
        show impStep t r = updImp (pyStr r.url) (coerceNum r.imp) t from rfl,
        updImp_find_same, updImp_find_same, h]
    · rw [show impStep s r = updImp (pyStr r.url) (coerceNum r.imp) s from rfl,
        show impStep t r = updImp (pyStr r.url) (coerceNum r.imp) t from rfl,
        updImp_find_ne u _ _ hru, updImp_find_ne u _ _ hru]
      exact h

theorem processEng_find_notin (u : String) :
    ∀ (rows : List EngRow) (s : List Post), (∀ r ∈ rows, pyStr r.url ≠ u) →
      (processEng s rows).find? (fun x => x.url == u) = s.find? (fun x => x.url == u) := by
  intro rows
  induction rows with
  | nil => intro s _; rfl
  | cons r rs ih =>
    intro s hr
    show (processEng (engStep s r) rs).find? _ = _
    rw [ih _ (fun r2 hr2 => hr r2 (List.mem_cons.mpr (Or.inr hr2)))]
    rw [show engStep s r = setPost (pyStr r.url)
          ⟨pyStr r.url, pyStr r.pdate, coerceOptNum r.eng, 0, none⟩ s from rfl,
      setPost_find_ne u (pyStr r.url) ⟨pyStr r.url, pyStr r.pdate, coerceOptNum r.eng, 0, none⟩
        (hr r (List.mem_cons.mpr (Or.inl rfl))) rfl s]

theorem processImp_find_notin (u : String) :
    ∀ (rows : List ImpRow) (s : List Post), (∀ r ∈ rows, pyStr r.url ≠ u) →
      (processImp s rows).find? (fun x => x.url == u) = s.find? (fun x => x.url == u) := by
  intro rows
  induction rows with
  | nil => intro s _; rfl
  | cons r rs ih =>
    intro s hr
    show (processImp (impStep s r) rs).find? _ = _
    rw [ih _ (fun r2 hr2 => hr r2 (List.mem_cons.mpr (Or.inr hr2)))]
    rw [show impStep s r = updImp (pyStr r.url) (coerceNum r.imp) s from rfl,
      updImp_find_ne u _ _ (hr r (List.mem_cons.mpr (Or.inl rfl)))]

/-- C1 counterexample: the merge is not commutative with respect to scan
order: for a URL present in both views, engagement-first processing keeps
the impression value, while impression-first processing lets the engagement
pass overwrite the whole record and reset impressions to 0. -/
theorem topPosts_merge_not_commutative :
    (processImp (processEng [] [⟨.str "u", .str "d", some (.int 12)⟩])
        [⟨.str "u", .int 500⟩]).find? (fun p => p.url == "u") ≠
      (processEng (processImp [] [⟨.str "u", .int 500⟩])
        [⟨.str "u", .str "d", some (.int 12)⟩]).find? (fun p => p.url == "u") := by
  decide

/-- C1 amended: the merge is commutative with respect to scan order only
when no URL appears in both views: then, for every URL, both processing
orders produce the same final record.  For shared URLs the engagement pass
overwrites the record seeded by the impression view (see the
counterexample), so fields are not unioned under the reversed order. -/
theorem topPosts_merge_comm_of_disjoint :
    ∀ (eng : List EngRow) (imp : List ImpRow),
      (∀ r ∈ eng, ∀ r2 ∈ imp, pyStr r.url ≠ pyStr r2.url) →
      ∀ u : String,
        (processImp (processEng [] eng) imp).find? (fun x => x.url == u) =
          (processEng (processImp [] imp) eng).find? (fun x => x.url == u) := by
  intro eng imp hdisj u
  by_cases he : ∀ r ∈ eng, pyStr r.url ≠ u
  · rw [processEng_find_notin u eng _ he]
    exact processImp_find_congr u imp _ _ (processEng_find_notin u eng [] he)
  · push_neg at he
    obtain ⟨r0, hr0, hr0u⟩ := he
    have himp : ∀ r2 ∈ imp, pyStr r2.url ≠ u := by
      intro r2 hr2 hc
      exact hdisj r0 hr0 r2 hr2 (by rw [hr0u, hc])
    rw [processImp_find_notin u imp _ himp]
    exact processEng_find_congr u eng _ _ (processImp_find_notin u imp [] himp).symm

/-- C1 witness: the commutativity theorem at concrete disjoint row sets. -/
theorem topPosts_merge_comm_witness :
    (processImp (processEng [] [⟨.str "a", .str "d", some (.int 1)⟩])
        [⟨.str "b", .int 2⟩]).find? (fun p => p.url == "a") =
      (processEng (processImp [] [⟨.str "b", .int 2⟩])
        [⟨.str "a", .str "d", some (.int 1)⟩]).find? (fun p => p.url == "a") :=
  topPosts_merge_comm_of_disjoint _ _ (by decide) "a"
